import Mathlib

/-!
Verification development for a personal-dashboard application whose testable
logic is: an AI-response JSON-array extractor with per-caller mappers
(`src/frontend/services/geminiService.ts`), a GitHub release poller
(`src/services/githubService.ts`, `src/components/RepositoryPanels.tsx`),
a news-article merge (`src/components/NewsPanel.tsx`) and a video-tag set
(`YouTubePanel`).  Strings are modelled as `List Char`; the JavaScript
behaviours (trim, the fence regex, `indexOf`/`lastIndexOf`/`substring`,
`JSON.parse`, object spread) are embedded as executable functions below.
-/

set_option autoImplicit false

namespace GoogleAiDashboard

/-- JavaScript whitespace, as used by `String.prototype.trim` and the regex
class `\s`: ASCII whitespace plus NBSP and BOM.  (The exotic Unicode space
separators are omitted; no claim involves them.) -/
def isJsWs (c : Char) : Bool :=
  c == ' ' || c == '\t' || c == '\n' || c == '\r' || c == '\x0b' || c == '\x0c' ||
  c == '\u00A0' || c == '\uFEFF'

/-- Drop leading JavaScript whitespace (the left half of `trim`). -/
def trimL (l : List Char) : List Char := l.dropWhile isJsWs

/-- Drop trailing JavaScript whitespace (the right half of `trim`). -/
def trimR (l : List Char) : List Char := (l.reverse.dropWhile isJsWs).reverse

/-- `String.prototype.trim`. -/
def jsTrim (l : List Char) : List Char := trimR (trimL l)

/-- The backtick character (kept out of character-literal form). -/
def backtick : Char := Char.ofNat 96

/-- Does the list start with three backticks (start of a fence marker)? -/
def fenceAtHead (l : List Char) : Bool :=
  match l with
  | a :: b :: c :: _ => a == backtick && b == backtick && c == backtick
  | _ => false

/-- Index of the first occurrence of a triple-backtick marker. -/
def findFence : List Char → Option Nat
  | [] => none
  | c :: rest =>
    if fenceAtHead (c :: rest) then some 0
    else (findFence rest).map (· + 1)

/-- Given the text right after an opening triple-backtick, the capture group of
the fence regex ```` /```(?:json)?\s*([\s\S]*?)\s*```/ ````: optionally consume
a literal `json` tag, skip whitespace, and take everything up to the first
closing triple-backtick with trailing whitespace stripped (the lazy group with
its flanking greedy `\s*`). -/
def fenceCapture (afterOpen : List Char) : Option (List Char) :=
  let afterLang := match afterOpen with
    | 'j' :: 's' :: 'o' :: 'n' :: rest => rest
    | l => l
  let inner := afterLang.dropWhile isJsWs
  match findFence inner with
  | some m => some (trimR (inner.take m))
  | none => none

/-- Leftmost match of the fence regex: scan for an opening triple-backtick that
is followed (after the optional tag and whitespace) by a closing one, and
return the capture group of the first position where the whole regex matches. -/
def fenceMatch : List Char → Option (List Char)
  | [] => none
  | c :: rest =>
    if fenceAtHead (c :: rest) then
      match fenceCapture (rest.drop 2) with
      | some cap => some cap
      | none => fenceMatch rest
    else fenceMatch rest

/-- `String.prototype.indexOf` for a single character (as an `Option`al index
rather than `-1` for absence). -/
def firstIdx (c : Char) : List Char → Option Nat
  | [] => none
  | x :: rest => if x = c then some 0 else (firstIdx c rest).map (· + 1)

/-- `String.prototype.lastIndexOf` for a single character. -/
def lastIdx (c : Char) (l : List Char) : Option Nat :=
  (firstIdx c l.reverse).map (fun i => l.length - 1 - i)

/-- `String.prototype.substring`: swaps its endpoints when given in the wrong
order, then returns the half-open slice. -/
def jsSubstring (l : List Char) (a b : Nat) : List Char :=
  (l.take (max a b)).drop (min a b)

/-- The first-`[`-to-last-`]` slice shared by all three extraction call sites:
`text.substring(text.indexOf('['), text.lastIndexOf(']') + 1)`, with `none`
when either bracket is absent. -/
def extractSliceCore (l : List Char) : Option (List Char) :=
  match firstIdx '[' l, lastIdx ']' l with
  | some i, some j => some (jsSubstring l i (j + 1))
  | _, _ => none

/-- The shared preprocessing of every call site: trim the response, then
replace it by the fenced block's inner content when the fence regex matches. -/
def preprocess (l : List Char) : List Char :=
  match fenceMatch (jsTrim l) with
  | some inner => inner
  | none => jsTrim l

/-- The candidate JSON text recovered from a raw AI response. -/
def extractJsonSlice (l : List Char) : Option (List Char) :=
  extractSliceCore (preprocess l)

/-- JSON values as produced by `JSON.parse`.  Number literals keep their
lexeme: no claim compares numeric values, so no float model is needed. -/
inductive Json where
  | null : Json
  | bool : Bool → Json
  | num : List Char → Json
  | str : List Char → Json
  | arr : List Json → Json
  | obj : List (List Char × Json) → Json

/-- Assign a field on a JavaScript object: replace in place when the key is
already present (keeping its insertion position), append otherwise.  This is
both how `JSON.parse` resolves duplicate keys and how an object-literal
override after a spread behaves. -/
def setField : List (List Char × Json) → List Char → Json → List (List Char × Json)
  | [], k, v => [(k, v)]
  | (k', v') :: rest, k, v =>
    if k' = k then (k, v) :: rest else (k', v') :: setField rest k v

/-- Read a property of a JavaScript object (`undefined` becomes `none`). -/
def jsGetField : List (List Char × Json) → List Char → Option Json
  | [], _ => none
  | (k', v') :: rest, k => if k' = k then some v' else jsGetField rest k

/-- JSON insignificant whitespace (the only characters `JSON.parse` skips
between tokens, a smaller set than the regex class `\s`). -/
def isJsonWs (c : Char) : Bool :=
  c == ' ' || c == '\t' || c == '\n' || c == '\r'

/-- Skip JSON insignificant whitespace. -/
def skipJsonWs (l : List Char) : List Char := l.dropWhile isJsonWs

/-- Value of one hexadecimal digit. -/
def hexVal (c : Char) : Option Nat :=
  if '0' ≤ c ∧ c ≤ '9' then some (c.toNat - 48)
  else if 'a' ≤ c ∧ c ≤ 'f' then some (c.toNat - 87)
  else if 'A' ≤ c ∧ c ≤ 'F' then some (c.toNat - 55)
  else none

/-- Single-character JSON string escapes. -/
def escChar (e : Char) : Option Char :=
  if e == '"' then some '"'
  else if e == '\\' then some '\\'
  else if e == '/' then some '/'
  else if e == 'b' then some (Char.ofNat 8)
  else if e == 'f' then some (Char.ofNat 12)
  else if e == 'n' then some '\n'
  else if e == 'r' then some '\r'
  else if e == 't' then some '\t'
  else none

/-- Body of a JSON string, starting after the opening quote; returns the
decoded content and the rest after the closing quote.  Unescaped control
characters are rejected, as in `JSON.parse`.  (`\uXXXX` maps the code unit
through `Char.ofNat`; surrogate-pair recombination is not modelled, no claim
involves it.) -/
def parseStringBody : List Char → Option (List Char × List Char)
  | [] => none
  | c :: rest =>
    if c == '"' then some ([], rest)
    else if c == '\\' then
      match rest with
      | [] => none
      | e :: rest2 =>
        if e == 'u' then
          match rest2 with
          | h1 :: h2 :: h3 :: h4 :: rest3 =>
            match hexVal h1, hexVal h2, hexVal h3, hexVal h4 with
            | some a, some b, some c', some d =>
              match parseStringBody rest3 with
              | some (s, r) => some (Char.ofNat (((a * 16 + b) * 16 + c') * 16 + d) :: s, r)
              | none => none
            | _, _, _, _ => none
          | _ => none
        else
          match escChar e with
          | some ec =>
            match parseStringBody rest2 with
            | some (s, r) => some (ec :: s, r)
            | none => none
          | none => none
    else if c.toNat < 32 then none
    else
      match parseStringBody rest with
      | some (s, r) => some (c :: s, r)
      | none => none

/-- Split a digit run off the front. -/
def parseDigits (l : List Char) : List Char × List Char :=
  (l.takeWhile Char.isDigit, l.dropWhile Char.isDigit)

/-- Optional fraction part `.[0-9]+` of a JSON number. -/
def parseFrac (l : List Char) : Option (List Char × List Char) :=
  match l with
  | '.' :: r =>
    let (ds, r2) := parseDigits r
    if ds.isEmpty then none else some ('.' :: ds, r2)
  | _ => some ([], l)

/-- Exponent tail after a literal `e`/`E`. -/
def parseExpTail (e : Char) (r : List Char) : Option (List Char × List Char) :=
  let (sgn, r1) := match r with
    | '+' :: rr => ((['+'] : List Char), rr)
    | '-' :: rr => ((['-'] : List Char), rr)
    | _ => (([] : List Char), r)
  let (ds, r2) := parseDigits r1
  if ds.isEmpty then none else some (e :: (sgn ++ ds), r2)

/-- Optional exponent part of a JSON number. -/
def parseExp (l : List Char) : Option (List Char × List Char) :=
  match l with
  | 'e' :: r => parseExpTail 'e' r
  | 'E' :: r => parseExpTail 'E' r
  | _ => some ([], l)

/-- JSON number grammar `-?(0|[1-9][0-9]*)(\.[0-9]+)?([eE][+-]?[0-9]+)?`,
returning the lexeme and the rest. -/
def parseNumber (l : List Char) : Option (List Char × List Char) :=
  let (negLex, l1) := match l with
    | '-' :: r => ((['-'] : List Char), r)
    | _ => (([] : List Char), l)
  match l1 with
  | '0' :: rest =>
    match parseFrac rest with
    | none => none
    | some (fr, r2) =>
      match parseExp r2 with
      | none => none
      | some (ex, r3) => some (negLex ++ '0' :: (fr ++ ex), r3)
  | c :: _ =>
    if c.isDigit then
      let (intDs, r1) := parseDigits l1
      match parseFrac r1 with
      | none => none
      | some (fr, r2) =>
        match parseExp r2 with
        | none => none
        | some (ex, r3) => some (negLex ++ intDs ++ fr ++ ex, r3)
    else none
  | [] => none

mutual

/-- Recursive-descent JSON value parser (fuel-indexed to make totality
evident; `Json.parse` supplies ample fuel). -/
def parseValue : Nat → List Char → Option (Json × List Char)
  | 0, _ => none
  | fuel + 1, l =>
    match skipJsonWs l with
    | 'n' :: 'u' :: 'l' :: 'l' :: rest => some (Json.null, rest)
    | 't' :: 'r' :: 'u' :: 'e' :: rest => some (Json.bool true, rest)
    | 'f' :: 'a' :: 'l' :: 's' :: 'e' :: rest => some (Json.bool false, rest)
    | '"' :: rest =>
      match parseStringBody rest with
      | some (s, r) => some (Json.str s, r)
      | none => none
    | '[' :: rest =>
      match skipJsonWs rest with
      | ']' :: r => some (Json.arr [], r)
      | l2 =>
        match parseElems fuel l2 with
        | some (vs, r) => some (Json.arr vs, r)
        | none => none
    | '{' :: rest =>
      match skipJsonWs rest with
      | '}' :: r => some (Json.obj [], r)
      | l2 => parseFields fuel [] l2
    | l1 =>
      match parseNumber l1 with
      | some (lex, r) => some (Json.num lex, r)
      | none => none

/-- Comma-separated array elements, positioned after `[` or `,`. -/
def parseElems : Nat → List Char → Option (List Json × List Char)
  | 0, _ => none
  | fuel + 1, l =>
    match parseValue fuel l with
    | none => none
    | some (v, rest) =>
      match skipJsonWs rest with
      | ',' :: rest2 =>
        match parseElems fuel rest2 with
        | some (vs, r) => some (v :: vs, r)
        | none => none
      | ']' :: rest2 => some ([v], rest2)
      | _ => none

/-- Comma-separated object members, positioned (whitespace-skipped) at a key;
duplicate keys resolve through `setField` as `JSON.parse` does. -/
def parseFields : Nat → List (List Char × Json) → List Char → Option (Json × List Char)
  | 0, _, _ => none
  | fuel + 1, acc, l =>
    match l with
    | '"' :: rest =>
      match parseStringBody rest with
      | none => none
      | some (k, rest2) =>
        match skipJsonWs rest2 with
        | ':' :: rest3 =>
          match parseValue fuel rest3 with
          | none => none
          | some (v, rest4) =>
            match skipJsonWs rest4 with
            | ',' :: rest5 => parseFields fuel (setField acc k v) (skipJsonWs rest5)
            | '}' :: rest5 => some (Json.obj (setField acc k v), rest5)
            | _ => none
        | _ => none
    | _ => none

end

/-- `JSON.parse`: parse one value and require only whitespace to remain. -/
def Json.parse (l : List Char) : Option Json :=
  match parseValue (2 * l.length + 8) l with
  | some (v, rest) => if (skipJsonWs rest).isEmpty then some v else none
  | none => none

mutual

/-- JavaScript string conversion of a value, for the shapes `JSON.parse` can
produce (covers the template-literal interpolation of `video.id`). -/
def jsDisplay : Json → List Char
  | Json.null => "null".data
  | Json.bool true => "true".data
  | Json.bool false => "false".data
  | Json.num lex => lex
  | Json.str s => s
  | Json.obj _ => "[object Object]".data
  | Json.arr xs => jsDisplayList xs

/-- `Array.prototype.toString`: elements joined by commas. -/
def jsDisplayList : List Json → List Char
  | [] => []
  | [v] => jsDisplayElem v
  | v :: rest => jsDisplayElem v ++ ',' :: jsDisplayList rest

/-- Inside an array join, `null` displays as the empty string. -/
def jsDisplayElem : Json → List Char
  | Json.null => []
  | v => jsDisplay v

end

/-- Template-literal interpolation of a possibly-`undefined` value. -/
def jsToDisplayString : Option Json → List Char
  | none => "undefined".data
  | some v => jsDisplay v

/-- Property access `v.k` on a parsed value: `none` is the `TypeError` raised
on `null`, `some none` is `undefined` on primitives, objects read the field. -/
def jsMember : Json → List Char → Option (Option Json)
  | Json.null, _ => none
  | Json.obj fs, k => some (jsGetField fs k)
  | _, _ => some none

/-- Decimal digits of an index key produced by spreading a string or array. -/
def natKey (n : Nat) : List Char := Nat.toDigits 10 n

/-- Own enumerable properties copied by an object spread `{...v}`:
an object's fields; index properties for strings and arrays; nothing for the
remaining primitives. -/
def spreadFields : Json → List (List Char × Json)
  | Json.obj fs => fs
  | Json.str s => s.enum.map (fun p => (natKey p.1, Json.str [p.2]))
  | Json.arr xs => xs.enum.map (fun p => (natKey p.1, p.2))
  | _ => []

/-- Key `"id"`. -/
def idKey : List Char := "id".data

/-- Key `"thumbnailUrl"`. -/
def thumbnailUrlKey : List Char := "thumbnailUrl".data

/-- The derived thumbnail location for a video id. -/
def thumbUrl (id : List Char) : List Char :=
  "https://i.ytimg.com/vi/".data ++ id ++ "/hqdefault.jpg".data

/-- The per-element mapper of `searchYouTubeVideos`:
`video => ({ ...video, thumbnailUrl: urlFor(video.id) })`.  `none` is the
`TypeError` raised when the element is `null`. -/
def videoMapper (v : Json) : Option Json :=
  match jsMember v idKey with
  | none => none
  | some idVal =>
    some (Json.obj (setField (spreadFields v) thumbnailUrlKey
      (Json.str (thumbUrl (jsToDisplayString idVal)))))

/-- `videosFromAI.map(video => ...)` over the parsed elements; the first
throwing element aborts the whole call. -/
def mapVideos : List Json → Option (List Json)
  | [] => some []
  | v :: rest =>
    match videoMapper v, mapVideos rest with
    | some w, some ws => some (w :: ws)
    | _, _ => none

/-- `fetchAndSummarizeNews`, from the AI's raw text onward: unwrap and slice,
`JSON.parse` the slice and resolve with the parsed value; every failure path
resolves with the empty array. -/
def fetchAndSummarizeNews (text : List Char) : Json :=
  match extractJsonSlice text with
  | none => Json.arr []
  | some s =>
    match Json.parse s with
    | some v => v
    | none => Json.arr []

/-- `String.prototype.toUpperCase` on a one-character string.  JavaScript
applies Unicode Default Case Conversion, under which a character can expand
to several: the German sharp s upper-cases to `"SS"`.  The model carries the
ASCII simple mapping plus that expansion (the other special expansions, all
outside the data this program handles, keep their simple behaviour). -/
def jsUpperChar (c : Char) : List Char :=
  if c = 'ß' then ['S', 'S'] else [c.toUpper]

/-- Tag normalization `tag.charAt(0).toUpperCase() + tag.slice(1).toLowerCase()`:
the first character goes through the string-valued uppercase mapping, the
remainder through the simple lowercase mapping. -/
def normalizeTag (tag : List Char) : List Char :=
  match tag with
  | [] => []
  | c :: rest => jsUpperChar c ++ rest.map Char.toLower

/-- The per-element mapper of `generateTagsForNewsSource`; a non-string
element has no `charAt` method, raising a `TypeError` (`none`). -/
def tagMapper : Json → Option (List Char)
  | Json.str s => some (normalizeTag s)
  | _ => none

/-- `tags.map(normalize)` over the parsed elements; the first throwing
element aborts the whole call. -/
def mapTags : List Json → Option (List (List Char))
  | [] => some []
  | v :: rest =>
    match tagMapper v, mapTags rest with
    | some t, some ts => some (t :: ts)
    | _, _ => none

/-- `generateTagsForNewsSource`, from the AI's raw text onward: like the news
path, but every extracted tag is case-normalized; a parse failure, a
non-array value or a non-string element all resolve with the empty list. -/
def generateTagsForNewsSource (text : List Char) : List (List Char) :=
  match extractJsonSlice text with
  | none => []
  | some s =>
    match Json.parse s with
    | some (Json.arr es) =>
      match mapTags es with
      | some tags => tags
      | none => []
    | _ => []

/-- The error message raised when the response holds no JSON array. -/
def aiReturnedMsg : List Char :=
  "The AI returned a response without a valid JSON array.".data

/-- The generic failure message of the video-search catch block. -/
def genericFailureMsg : List Char :=
  "Failed to fetch YouTube videos. The AI may be unavailable or the request failed.".data

/-- The substring the catch block tests with `error.message.includes`. -/
def aiReturnedMarker : List Char := "The AI returned".data

/-- `String.prototype.includes`: does `pat` occur inside `hay`? -/
def jsIncludes (hay pat : List Char) : Bool :=
  match hay with
  | [] => pat.isEmpty
  | _ :: t => pat.isPrefixOf hay || jsIncludes t pat

/-- The strict extraction of `searchYouTubeVideos`, from the AI's raw text
onward: a missing bracket raises the descriptive message (rethrown as-is by
the catch block); a `JSON.parse` error, a parsed non-array (no `.map` method)
or a `null` element (no `.id`) raise errors without the marker, which the
catch block replaces by the generic message. -/
def searchFromText (text : List Char) : Except (List Char) (List Json) :=
  match extractJsonSlice text with
  | none => Except.error aiReturnedMsg
  | some s =>
    match Json.parse s with
    | some (Json.arr es) =>
      match mapVideos es with
      | some vs => Except.ok vs
      | none => Except.error genericFailureMsg
    | _ => Except.error genericFailureMsg

/-- `searchYouTubeVideos` with the AI round-trip as an oracle argument: an
empty tag list short-circuits to an empty result before any request; a
failed request surfaces through the same catch block. -/
def searchYouTubeVideos (tags : List String) (aiResult : Except (List Char) (List Char)) :
    Except (List Char) (List Json) :=
  if tags.length = 0 then Except.ok []
  else
    match aiResult with
    | Except.error msg =>
      Except.error (if jsIncludes msg aiReturnedMarker then msg else genericFailureMsg)
    | Except.ok text => searchFromText text

/-- Latest-release payload of the GitHub releases endpoint (the fields the
checker reads).  `published_at` is the release timestamp in epoch
milliseconds, the scale on which `Date` comparison happens. -/
structure Release where
  name : String
  tag_name : String
  published_at : Int
  html_url : String

/-- The `latestRelease` snapshot stored on a tracked repository. -/
structure ReleaseInfo where
  name : String
  tagName : String
  publishedAt : Int
  url : String

/-- A tracked repository (`types.ts`). -/
structure Repository where
  id : Int
  fullName : String
  url : String
  description : Option String
  avatarUrl : String
  hasUpdate : Bool
  latestRelease : Option ReleaseInfo

/-- Milliseconds in three calendar days; `setDate(getDate() - 3)` subtracts
exactly this much outside daylight-saving transitions (no claim involves a
transition). -/
def threeDaysMs : Int := 3 * 86400000

/-- `checkRepositoryUpdate` with its two effects passed explicitly: the result
of `parseRepoUrl` and the settled outcome of `fetchLatestRelease` — `none`
when the releases list is empty, `Except.error` when the request rejected.
An unparseable URL returns the entry untouched; a fetched release sets
`hasUpdate := publishedAt > now - 3 days` and replaces the snapshot; the
no-release and failure paths spread the entry with only `hasUpdate: false`. -/
def checkRepositoryUpdate (now : Int) (parsed : Option (String × String))
    (fetchResult : Except Unit (Option Release)) (repository : Repository) : Repository :=
  match parsed with
  | none => repository
  | some _ =>
    match fetchResult with
    | Except.ok (some latestRelease) =>
      { repository with
        hasUpdate := decide (now - threeDaysMs < latestRelease.published_at),
        latestRelease := some
          { name := latestRelease.name
            tagName := latestRelease.tag_name
            publishedAt := latestRelease.published_at
            url := latestRelease.html_url } }
    | Except.ok none => { repository with hasUpdate := false }
    | Except.error _ => { repository with hasUpdate := false }

/-- `new Map(entries).get(key)`: the last entry for a key wins. -/
def jsMapGet (entries : List (Int × Repository)) (key : Int) : Option Repository :=
  entries.foldl (fun acc e => if e.1 = key then some e.2 else acc) none

/-- The merge `runUpdateCheck` applies after `Promise.all`:
`prevRepos.map(repo => checkedMap.get(repo.id) || repo)`. -/
def runUpdateCheckMerge (checkedRepos prevRepos : List Repository) : List Repository :=
  let checkedMap := checkedRepos.map (fun r => (r.id, r))
  prevRepos.map (fun repo => (jsMapGet checkedMap repo.id).getD repo)

/-- The whole batch of per-item checks (`repositories.map(checkRepositoryUpdate)`
awaited by `Promise.all`), with each item's effects given by oracles. -/
def runUpdateCheckBatch (now : Int) (parses : Repository → Option (String × String))
    (fetches : Repository → Except Unit (Option Release))
    (repos : List Repository) : List Repository :=
  repos.map (fun r => checkRepositoryUpdate now (parses r) (fetches r) r)

/-- A news article (`types.ts`). -/
structure NewsArticle where
  title : String
  summary : String
  link : String
deriving DecidableEq

/-- The accumulation step of `fetchNewsForSource`: drop fetched articles whose
link is already known for the source, and prepend the remainder. -/
def mergeNews (currentArticles fetchedArticles : List NewsArticle) : List NewsArticle :=
  let currentLinks := currentArticles.map (fun a => a.link)
  let newUniqueArticles := fetchedArticles.filter (fun a => !(currentLinks.contains a.link))
  newUniqueArticles ++ currentArticles

/-- A tracked video-search tag (`types.ts`). -/
structure YouTubeTag where
  id : List Char
  name : List Char
deriving DecidableEq

/-- `handleAddTag`: trim the input; add it only when nonempty and no tracked
tag has the same name case-insensitively. -/
def handleAddTag (tags : List YouTubeTag) (newTag newId : List Char) : List YouTubeTag :=
  let tagName := jsTrim newTag
  if tagName.isEmpty = false ∧
      tags.any (fun t => t.name.map Char.toLower == tagName.map Char.toLower) = false then
    tags ++ [{ id := newId, name := tagName }]
  else tags

/-- A canonical fenced code block around a body, as the AI emits it. -/
def fenceWrap (body : List Char) : List Char :=
  "```json\n".data ++ body ++ "\n```".data

/-- An AI response whose content is `body`, optionally wrapped in a fenced
code block and/or surrounded by prose. -/
def aiWrapped (fenced : Bool) (p1 p2 body : List Char) : List Char :=
  p1 ++ (if fenced then fenceWrap body else body) ++ p2

/-- A concrete tracked repository that carries a release snapshot from an
earlier successful check. -/
def repoWithStaleSnapshot : Repository :=
  { id := 1
    fullName := "owner/repo"
    url := "https://github.com/owner/repo"
    description := none
    avatarUrl := "a"
    hasUpdate := true
    latestRelease := some { name := "v1", tagName := "v1", publishedAt := 0, url := "u" } }

/-- Case-insensitive uniqueness of names inside the tracked tag set. -/
def caseInsensitiveUnique (tags : List YouTubeTag) : Prop :=
  (tags.map (fun t => t.name.map Char.toLower)).Nodup

/-- A concrete news article. -/
def artA : NewsArticle := { title := "t1", summary := "s1", link := "l1" }

/-- Another concrete news article. -/
def artB : NewsArticle := { title := "t2", summary := "s2", link := "l2" }

/-- A concrete JSON-object interior (one video element with id `"x1"`). -/
def sampleMid : List Char := "\x7b\"id\":\"x1\"\x7d".data

/-- The elements `JSON.parse` recovers from `"[" ++ sampleMid ++ "]"`. -/
def sampleElems : List Json := [Json.obj [("id".data, Json.str "x1".data)]]

/-- The mapped video records for `sampleElems`. -/
def sampleVideos : List Json :=
  [Json.obj [("id".data, Json.str "x1".data),
             (thumbnailUrlKey, Json.str (thumbUrl "x1".data))]]

/-! ### Claim theorems: repository poller -/

/-- C3: for every tracked repository whose latest release exists, the per-item
check sets `hasUpdate` to `publishedAt > now - 3 days`; a release published
exactly 3 days and 1 second before now yields `hasUpdate = false`, and one
published 2 days 23 hours before now yields `hasUpdate = true`. -/
theorem c3_freshness_window (now : Int) (p : String × String) (rel : Release)
    (repo : Repository) :
    (checkRepositoryUpdate now (some p) (Except.ok (some rel)) repo).hasUpdate
      = decide (now - threeDaysMs < rel.published_at)
    ∧ (checkRepositoryUpdate now (some p)
        (Except.ok (some { rel with published_at := now - 259201000 })) repo).hasUpdate = false
    ∧ (checkRepositoryUpdate now (some p)
        (Except.ok (some { rel with published_at := now - 255600000 })) repo).hasUpdate = true := by
  refine ⟨rfl, ?_, ?_⟩
  · simp only [checkRepositoryUpdate, threeDaysMs, decide_eq_false_iff_not]
    omega
  · simp only [checkRepositoryUpdate, threeDaysMs, decide_eq_true_eq]
    omega

/-- C4: the poller merge maps each tracked entry to its checked version when
its id is in the result map and leaves it unchanged otherwise; the length
equality shows no entry is ever removed. -/
theorem c4_merge_semantics (checkedRepos prevRepos : List Repository) :
    (runUpdateCheckMerge checkedRepos prevRepos).length = prevRepos.length
    ∧ ∀ i : Nat, (runUpdateCheckMerge checkedRepos prevRepos)[i]? =
        (prevRepos[i]?).map (fun repo =>
          match jsMapGet (checkedRepos.map (fun r => (r.id, r))) repo.id with
          | some updated => updated
          | none => repo) := by
  constructor
  · simp [runUpdateCheckMerge]
  · intro i
    simp only [runUpdateCheckMerge, List.getElem?_map]
    cases prevRepos[i]? with
    | none => rfl
    | some repo =>
      simp only [Option.map_some']
      cases jsMapGet (checkedRepos.map (fun r => (r.id, r))) repo.id <;> rfl

/-- C5 (amended): a failed per-item check never raises out of the batch — the
entry comes back with `hasUpdate = false` and its release data left
*unchanged* (not unset), and each batch slot depends only on its own
repository's outcome. -/
theorem c5_item_failure_isolated (now : Int) (p : String × String)
    (repo : Repository) (parses : Repository → Option (String × String))
    (fetches : Repository → Except Unit (Option Release)) (repos : List Repository) :
    checkRepositoryUpdate now (some p) (Except.error ()) repo
      = { repo with hasUpdate := false }
    ∧ ∀ i : Nat, (runUpdateCheckBatch now parses fetches repos)[i]? =
        (repos[i]?).map (fun r => checkRepositoryUpdate now (parses r) (fetches r) r) := by
  exact ⟨rfl, fun i => by simp [runUpdateCheckBatch]⟩



/-- C5 counterexample: after a failed check, the claim says release data is
left unset, but the returned entry still carries the prior snapshot. -/
theorem c5_release_data_not_unset :
    (checkRepositoryUpdate 0 (some ("owner", "repo")) (Except.error ())
      repoWithStaleSnapshot).latestRelease ≠ none := by
  simp [checkRepositoryUpdate, repoWithStaleSnapshot]

/-- C6 (amended): when the release lookup succeeds but returns no release,
the per-item check returns the entry with `hasUpdate = false` and
`latestRelease` left unchanged from the input (so still absent only when it
was absent before). -/
theorem c6_no_release_clears_flag_only (now : Int) (p : String × String)
    (repo : Repository) :
    checkRepositoryUpdate now (some p) (Except.ok none) repo
      = { repo with hasUpdate := false } := rfl

/-- C6 counterexample: the claim says `latestRelease` is cleared on a
no-release result, but an entry holding a stale snapshot keeps it. -/
theorem c6_snapshot_not_cleared :
    (checkRepositoryUpdate 0 (some ("owner", "repo")) (Except.ok none)
      repoWithStaleSnapshot).latestRelease ≠ none := by
  simp [checkRepositoryUpdate, repoWithStaleSnapshot]

/-- C10: with an empty tag list the video search returns an empty result at
once — the outcome is `ok []` whatever the AI oracle would have answered
(even an error), so no request is consulted and no error can be raised. -/
theorem c10_empty_tags_short_circuit (aiResult : Except (List Char) (List Char)) :
    searchYouTubeVideos [] aiResult = Except.ok [] := rfl

/-! ### Claim theorems: tag normalization and the tag set -/

/-- `Char.ofNat` round-trips on small scalar values. -/
theorem charOfNat_toNat_small (n : Nat) (h : n < 55296) : (Char.ofNat n).toNat = n := by
  have hv : n.isValidChar := Or.inl h
  rw [Char.ofNat, dif_pos hv]
  simp [Char.ofNatAux, Char.toNat, UInt32.ofNat', UInt32.toNat, BitVec.toNat_ofNatLt]

/-- Upper-casing a character twice equals upper-casing it once. -/
theorem charToUpper_idem (c : Char) : c.toUpper.toUpper = c.toUpper := by
  unfold Char.toUpper
  by_cases h : 97 ≤ c.toNat ∧ c.toNat ≤ 122
  · rw [if_pos h]
    have ht : (Char.ofNat (c.toNat - 32)).toNat = c.toNat - 32 :=
      charOfNat_toNat_small _ (by omega)
    rw [if_neg (by omega)]
  · rw [if_neg h, if_neg h]

/-- Lower-casing a character twice equals lower-casing it once. -/
theorem charToLower_idem (c : Char) : c.toLower.toLower = c.toLower := by
  unfold Char.toLower
  by_cases h : 65 ≤ c.toNat ∧ c.toNat ≤ 90
  · rw [if_pos h]
    have ht : (Char.ofNat (c.toNat + 32)).toNat = c.toNat + 32 :=
      charOfNat_toNat_small _ (by omega)
    rw [if_neg (by omega)]
  · rw [if_neg h, if_neg h]

/-- No character with the simple uppercase mapping upper-cases to the sharp
s (the ASCII range maps into `A`-`Z`, everything else is fixed). -/
theorem charToUpper_ne_sharp_s {c : Char} (h : ¬(c = 'ß')) : ¬(c.toUpper = 'ß') := by
  unfold Char.toUpper
  by_cases hr : 97 ≤ c.toNat ∧ c.toNat ≤ 122
  · rw [if_pos hr]
    intro heq
    have ht : (Char.ofNat (c.toNat - 32)).toNat = c.toNat - 32 :=
      charOfNat_toNat_small _ (by omega)
    rw [heq] at ht
    have hv : ('ß' : Char).toNat = 223 := by decide
    omega
  · rw [if_neg hr]
    exact h

/-- C8 counterexample: normalization is not idempotent on every string — the
sharp s expands to `"SS"`, which renormalizes to `"Ss"`. -/
theorem c8_sharp_s_not_idempotent :
    normalizeTag (normalizeTag ['ß']) ≠ normalizeTag ['ß'] := by decide

/-- C8 (amended): tag normalization maps every string to the uppercase
mapping of its first character followed by the remainder lower-cased, and
sends each of `"AI"`, `"ai"`, `"Ai"` to `"Ai"`; it is idempotent on every
string whose first character has a single-character uppercase mapping (all
ASCII strings in particular), though not on every string. -/
theorem c8_normalize_tag_amended :
    (∀ (c : Char) (rest : List Char),
        normalizeTag (c :: rest) = jsUpperChar c ++ rest.map Char.toLower)
    ∧ (∀ (c : Char) (rest : List Char), ¬(c = 'ß') →
        normalizeTag (normalizeTag (c :: rest)) = normalizeTag (c :: rest))
    ∧ normalizeTag [] = []
    ∧ normalizeTag "AI".data = "Ai".data
    ∧ normalizeTag "ai".data = "Ai".data
    ∧ normalizeTag "Ai".data = "Ai".data := by
  refine ⟨fun c rest => rfl, ?_, rfl, by decide, by decide, by decide⟩
  intro c rest hc
  have h1 : normalizeTag (c :: rest) = c.toUpper :: rest.map Char.toLower := by
    rw [normalizeTag, jsUpperChar, if_neg hc]
    rfl
  rw [h1, normalizeTag, jsUpperChar, if_neg (charToUpper_ne_sharp_s hc)]
  simp only [List.singleton_append, List.cons.injEq, List.map_map]
  exact ⟨charToUpper_idem c, List.map_congr_left (fun a _ => charToLower_idem a)⟩

/-- C8 witness: the amended idempotence discharged at concrete ASCII tags. -/
theorem c8_normalize_tag_amended_witness :
    normalizeTag (normalizeTag ('a' :: "i".data)) = normalizeTag ('a' :: "i".data)
    ∧ normalizeTag (normalizeTag ('A' :: "I".data)) = normalizeTag ('A' :: "I".data) :=
  ⟨c8_normalize_tag_amended.2.1 'a' "i".data (by decide),
   c8_normalize_tag_amended.2.1 'A' "I".data (by decide)⟩

/-- C9: adding a tag whose name matches an existing one case-insensitively
leaves the set unchanged; the add operation preserves case-insensitive name
uniqueness; and adding `"Rust"`, `"rust"`, `"Systems"` to the empty set ends
with exactly the names `["Rust", "Systems"]`. -/
theorem c9_tag_add_case_insensitive :
    (∀ (tags : List YouTubeTag) (newTag newId : List Char),
        (∃ t ∈ tags, t.name.map Char.toLower = (jsTrim newTag).map Char.toLower) →
        handleAddTag tags newTag newId = tags)
    ∧ (∀ (tags : List YouTubeTag) (newTag newId : List Char),
        caseInsensitiveUnique tags → caseInsensitiveUnique (handleAddTag tags newTag newId))
    ∧ (handleAddTag (handleAddTag (handleAddTag [] "Rust".data "1".data)
        "rust".data "2".data) "Systems".data "3".data).map (fun t => t.name)
      = ["Rust".data, "Systems".data] := by
  refine ⟨?_, ?_, by decide⟩
  · rintro tags newTag newId ⟨t, ht, heq⟩
    rw [handleAddTag, if_neg]
    rintro ⟨-, h2⟩
    have : tags.any (fun t => t.name.map Char.toLower == (jsTrim newTag).map Char.toLower)
        = true := List.any_eq_true.mpr ⟨t, ht, beq_iff_eq.mpr heq⟩
    simp only [this] at h2
    cases h2
  · intro tags newTag newId h
    rw [handleAddTag]
    split
    · rename_i hcond
      have hnone : ∀ t ∈ tags,
          ¬(t.name.map Char.toLower = (jsTrim newTag).map Char.toLower) := by
        simpa using hcond.2
      rw [caseInsensitiveUnique, List.map_append, List.nodup_append]
      refine ⟨h, by simp, ?_⟩
      intro x hx hmem
      rcases List.mem_map.mp hx with ⟨t, ht, rfl⟩
      simp only [List.map_cons, List.map_nil, List.mem_singleton] at hmem
      exact hnone t ht hmem
    · exact h

/-- C9 witness: a case-insensitive duplicate insertion is a no-op, and the
add operation keeps a concrete set's names case-insensitively unique. -/
theorem c9_tag_add_case_insensitive_witness :
    handleAddTag [{ id := "1".data, name := "Rust".data }] "rust".data "2".data
      = [{ id := "1".data, name := "Rust".data }]
    ∧ caseInsensitiveUnique (handleAddTag [] "Rust".data "1".data) :=
  ⟨c9_tag_add_case_insensitive.1 _ _ _
      ⟨{ id := "1".data, name := "Rust".data }, by decide, by decide⟩,
   c9_tag_add_case_insensitive.2.1 [] _ _ (by simp [caseInsensitiveUnique])⟩

/-! ### Claim theorems: news merge -/

/-- C7: the news merge is the identity on an empty batch, adds nothing for a
link already known, prepends (keeps the old list as a suffix) only link-wise
new articles, and preserves per-link uniqueness of the accumulated list. -/
theorem c7_news_merge_dedup (cur f : List NewsArticle) :
    mergeNews cur [] = cur
    ∧ (∀ lnk : String, lnk ∈ cur.map (fun a => a.link) →
        ((mergeNews cur f).filter (fun a => a.link == lnk)).length
          = (cur.filter (fun a => a.link == lnk)).length)
    ∧ cur <:+ mergeNews cur f
    ∧ (∀ a, a ∈ mergeNews cur f →
        a ∈ cur ∨ (a ∈ f ∧ a.link ∉ cur.map (fun a => a.link)))
    ∧ ((cur.map (fun a => a.link)).Nodup → (f.map (fun a => a.link)).Nodup →
        ((mergeNews cur f).map (fun a => a.link)).Nodup) := by
  have memFiltered : ∀ a, a ∈ f.filter (fun a => !((cur.map (fun a => a.link)).contains a.link)) →
      a ∈ f ∧ a.link ∉ cur.map (fun a => a.link) := by
    intro a ha
    have := List.mem_filter.mp ha
    refine ⟨this.1, ?_⟩
    simpa using this.2
  refine ⟨by simp [mergeNews], ?_, ?_, ?_, ?_⟩
  · intro lnk hmem
    rw [mergeNews]
    rw [List.filter_append, List.length_append]
    have hnil : (f.filter (fun a => !((cur.map (fun a => a.link)).contains a.link))).filter
        (fun a => a.link == lnk) = [] := by
      rw [List.filter_eq_nil_iff]
      intro a ha hlnk
      exact (memFiltered a ha).2 (by rwa [eq_of_beq hlnk])
    rw [hnil]
    simp
  · exact List.suffix_append _ _
  · intro a ha
    rcases List.mem_append.mp ha with h | h
    · exact Or.inr (memFiltered a h)
    · exact Or.inl h
  · intro h1 h2
    rw [mergeNews, List.map_append, List.nodup_append]
    refine ⟨?_, h1, ?_⟩
    · exact ((List.filter_sublist f).map (fun a => a.link)).nodup h2
    · intro x hx
      rcases List.mem_map.mp hx with ⟨a, ha, rfl⟩
      exact (memFiltered a ha).2





/-- C7 witness: re-fetching a known link adds nothing, and a concrete merge of
link-wise-distinct lists keeps the links unique. -/
theorem c7_news_merge_dedup_witness :
    ((mergeNews [artA] [artA, artB]).filter (fun a => a.link == "l1")).length
      = (([artA] : List NewsArticle).filter (fun a => a.link == "l1")).length
    ∧ ((mergeNews [artA] [artB]).map (fun a => a.link)).Nodup :=
  ⟨(c7_news_merge_dedup [artA] [artA, artB]).2.1 "l1" (by decide),
   (c7_news_merge_dedup [artA] [artB]).2.2.2.2 (by decide) (by decide)⟩

/-! ### Bracket-slice lemmas -/

/-- `indexOf` misses a character that does not occur. -/
theorem firstIdx_of_not_mem {c : Char} {l : List Char} (h : c ∉ l) :
    firstIdx c l = none := by
  induction l with
  | nil => rfl
  | cons x rest ih =>
    have hx : ¬(x = c) := by rintro rfl; exact h (List.mem_cons_self x rest)
    rw [firstIdx, if_neg hx, ih (fun hm => h (List.mem_cons_of_mem x hm))]
    rfl

/-- `indexOf` skips over a prefix free of the sought character. -/
theorem firstIdx_append {c : Char} {a : List Char} (l : List Char) (h : c ∉ a) :
    firstIdx c (a ++ l) = (firstIdx c l).map (· + a.length) := by
  induction a with
  | nil => simp
  | cons x rest ih =>
    have hx : ¬(x = c) := by rintro rfl; exact h (List.mem_cons_self x rest)
    rw [List.cons_append, firstIdx, if_neg hx,
      ih (fun hm => h (List.mem_cons_of_mem x hm))]
    cases firstIdx c l with
    | none => rfl
    | some i => simp; omega

/-- `indexOf` finds the sought character at the head. -/
theorem firstIdx_cons_self (c : Char) (l : List Char) :
    firstIdx c (c :: l) = some 0 := by
  rw [firstIdx, if_pos rfl]

/-- Taking exactly the left part of an append. -/
theorem take_append_len (x y : List Char) (n : Nat) :
    (x ++ y).take (x.length + n) = x ++ y.take n := by
  induction x with
  | nil => simp
  | cons a t ih => simp [List.take_succ_cons, Nat.succ_add, ih]

/-- Dropping exactly the left part of an append. -/
theorem drop_append_len (x y : List Char) :
    (x ++ y).drop x.length = y := by
  induction x with
  | nil => simp
  | cons a t ih => simp [ih]

/-- On text of the shape `a ++ "[" ++ mid ++ "]" ++ b` with no `[` in `a` and
no `]` in `b`, the slice recovers exactly `"[" ++ mid ++ "]"`. -/
theorem extractSliceCore_spec (a mid b : List Char)
    (ha : '[' ∉ a) (hb : ']' ∉ b) :
    extractSliceCore (a ++ ('[' :: (mid ++ [']'])) ++ b) = some ('[' :: (mid ++ [']'])) := by
  have hfirst : firstIdx '[' (a ++ ('[' :: (mid ++ [']'])) ++ b) = some a.length := by
    rw [List.append_assoc, firstIdx_append _ ha, List.cons_append, firstIdx_cons_self]
    simp
  have hb' : ']' ∉ b.reverse := fun hm => hb (List.mem_reverse.mp hm)
  have hrev : (a ++ ('[' :: (mid ++ [']'])) ++ b).reverse
      = b.reverse ++ (']' :: (mid.reverse ++ '[' :: a.reverse)) := by
    simp
  have hlast : lastIdx ']' (a ++ ('[' :: (mid ++ [']'])) ++ b)
      = some (a.length + mid.length + 1) := by
    rw [lastIdx, hrev, firstIdx_append _ hb', firstIdx_cons_self]
    simp only [Option.map_some', Option.some.injEq]
    simp only [List.length_append, List.length_cons, List.length_reverse,
      List.length_nil]
    omega
  have hmin : min a.length (a.length + mid.length + 1 + 1) = a.length := by omega
  have hmax : max a.length (a.length + mid.length + 1 + 1)
      = a.length + (mid.length + 2) := by omega
  have htake : ((a ++ ('[' :: (mid ++ [']'])) ++ b)).take (a.length + (mid.length + 2))
      = a ++ ('[' :: (mid ++ [']'])) := by
    rw [List.append_assoc, take_append_len]
    have hlen : ('[' :: (mid ++ [']'])).length = mid.length + 2 := by simp
    have h2 : (('[' :: (mid ++ [']'])) ++ b).take (mid.length + 2)
        = '[' :: (mid ++ [']']) := by
      conv_lhs => rw [← hlen, ← Nat.add_zero ('[' :: (mid ++ [']'])).length]
      rw [take_append_len]
      simp
    rw [h2]
  have hsub : jsSubstring (a ++ ('[' :: (mid ++ [']'])) ++ b) a.length
      (a.length + mid.length + 1 + 1) = '[' :: (mid ++ [']']) := by
    rw [jsSubstring, hmin, hmax, htake, drop_append_len]
  rw [extractSliceCore, hfirst, hlast]
  exact congrArg some hsub

/-- Without one of the brackets there is no slice. -/
theorem extractSliceCore_none {l : List Char} (h : '[' ∉ l ∨ ']' ∉ l) :
    extractSliceCore l = none := by
  rcases h with h | h
  · rw [extractSliceCore, firstIdx_of_not_mem h]
  · rw [extractSliceCore, lastIdx,
      firstIdx_of_not_mem (fun hm => h (List.mem_reverse.mp hm))]
    cases firstIdx '[' l <;> rfl

/-! ### Trim lemmas -/

/-- Dropping leading whitespace stops no later than a non-whitespace char. -/
theorem trimL_append_cons (a r : List Char) (c : Char) (hc : isJsWs c = false) :
    trimL (a ++ c :: r) = trimL a ++ c :: r := by
  induction a with
  | nil => simp [trimL, List.dropWhile_cons, hc]
  | cons x t ih =>
    simp only [List.cons_append, trimL, List.dropWhile_cons] at ih ⊢
    cases hx : isJsWs x <;> simp [hx, ih]

/-- Dropping trailing whitespace stops no earlier than a non-whitespace char. -/
theorem trimR_append_cons (w p : List Char) (d : Char) (hd : isJsWs d = false) :
    trimR (w ++ d :: p) = w ++ d :: trimR p := by
  rw [trimR]
  have hrev : (w ++ d :: p).reverse = p.reverse ++ d :: w.reverse := by simp
  rw [hrev]
  have h2 : List.dropWhile isJsWs (p.reverse ++ d :: w.reverse)
      = List.dropWhile isJsWs p.reverse ++ d :: w.reverse := by
    have h3 := trimL_append_cons p.reverse w.reverse d hd
    simpa [trimL] using h3
  rw [h2]
  simp [trimR]

/-- Trimming text that holds a non-whitespace-delimited core trims only the
prose at the two ends. -/
theorem jsTrim_sandwich (p1 t p2 : List Char) (c d : Char)
    (hc : isJsWs c = false) (hd : isJsWs d = false) :
    jsTrim (p1 ++ (c :: (t ++ [d])) ++ p2) = trimL p1 ++ (c :: (t ++ [d])) ++ trimR p2 := by
  rw [jsTrim]
  have h1 : p1 ++ (c :: (t ++ [d])) ++ p2 = p1 ++ c :: (t ++ d :: p2) := by simp
  rw [h1, trimL_append_cons _ _ _ hc]
  have h2 : trimL p1 ++ c :: (t ++ d :: p2) = (trimL p1 ++ c :: t) ++ d :: p2 := by simp
  rw [h2, trimR_append_cons _ _ _ hd]
  simp

/-- Membership after left-trimming implies membership before. -/
theorem mem_of_mem_trimL {x : Char} {l : List Char} (h : x ∈ trimL l) : x ∈ l :=
  (List.dropWhile_sublist isJsWs).mem h

/-- Membership after right-trimming implies membership before. -/
theorem mem_of_mem_trimR {x : Char} {l : List Char} (h : x ∈ trimR l) : x ∈ l := by
  rw [trimR, List.mem_reverse] at h
  exact List.mem_reverse.mp ((List.dropWhile_sublist isJsWs).mem h)

/-! ### Fence lemmas -/

/-- No fence marker can start at a non-backtick character. -/
theorem fenceAtHead_cons_false {x : Char} (t : List Char) (hx : ¬(x = backtick)) :
    fenceAtHead (x :: t) = false := by
  match t with
  | [] => rfl
  | [_] => rfl
  | _ :: _ :: _ =>
    simp only [fenceAtHead, Bool.and_eq_false_imp]
    simp [beq_eq_false_iff_ne, hx]

/-- A backtick-free text holds no fence. -/
theorem fenceMatch_of_no_backtick {l : List Char} (h : backtick ∉ l) :
    fenceMatch l = none := by
  induction l with
  | nil => rfl
  | cons x rest ih =>
    have hx : ¬(x = backtick) := by rintro rfl; exact h (List.mem_cons_self _ rest)
    rw [fenceMatch, if_neg (by simp [fenceAtHead_cons_false rest hx])]
    exact ih (fun hm => h (List.mem_cons_of_mem x hm))

/-- The first fence marker sits right after a backtick-free prefix. -/
theorem findFence_append {m : List Char} (l : List Char) (h : backtick ∉ m) :
    findFence (m ++ l) = (findFence l).map (· + m.length) := by
  induction m with
  | nil => simp
  | cons x rest ih =>
    have hx : ¬(x = backtick) := by rintro rfl; exact h (List.mem_cons_self _ rest)
    rw [List.cons_append, findFence,
      if_neg (by simp [fenceAtHead_cons_false _ hx]),
      ih (fun hm => h (List.mem_cons_of_mem x hm))]
    cases findFence l with
    | none => rfl
    | some i => simp; omega

/-- A fence marker is found at an actual triple backtick. -/
theorem findFence_at_fence (l : List Char) :
    findFence (backtick :: backtick :: backtick :: l) = some 0 := by
  rw [findFence, if_pos (by simp [fenceAtHead])]

/-- The literal characters of the opening fence marker. -/
theorem fencePre_data : "```json\n".data
    = backtick :: backtick :: backtick :: 'j' :: 's' :: 'o' :: 'n' :: '\n' :: [] := by
  decide

/-- The literal characters of the closing fence marker. -/
theorem fencePost_data : "\n```".data = '\n' :: backtick :: backtick :: backtick :: [] := by
  decide

/-- The capture group computed on a canonical fenced array body. -/
theorem fenceCapture_wrap (mid r : List Char) (hm : backtick ∉ mid) :
    fenceCapture ('j' :: 's' :: 'o' :: 'n' :: '\n' ::
        (('[' :: (mid ++ [']'])) ++ '\n' :: backtick :: backtick :: backtick :: r))
      = some ('[' :: (mid ++ [']'])) := by
  have hmB : backtick ∉ ('[' :: (mid ++ [']'])) ++ ['\n'] := by
    intro hmem
    rcases List.mem_append.mp hmem with h | h
    · rcases List.mem_cons.mp h with h | h
      · exact absurd h.symm (by decide)
      · rcases List.mem_append.mp h with h | h
        · exact hm h
        · rcases List.mem_singleton.mp h with h
          exact absurd h (by decide)
    · rcases List.mem_singleton.mp h with h
      exact absurd h (by decide)
  have hws : List.dropWhile isJsWs ('\n' ::
      (('[' :: (mid ++ [']'])) ++ '\n' :: backtick :: backtick :: backtick :: r))
      = ('[' :: (mid ++ [']'])) ++ '\n' :: backtick :: backtick :: backtick :: r := by
    rw [List.dropWhile_cons, if_pos (by decide), List.cons_append, List.dropWhile_cons,
      if_neg (by decide)]
  have hshape : ('[' :: (mid ++ [']'])) ++ '\n' :: backtick :: backtick :: backtick :: r
      = (('[' :: (mid ++ [']'])) ++ ['\n']) ++ backtick :: backtick :: backtick :: r := by
    simp
  have hfind : findFence (('[' :: (mid ++ [']'])) ++ '\n' :: backtick :: backtick :: backtick :: r)
      = some (mid.length + 3) := by
    rw [hshape, findFence_append _ hmB, findFence_at_fence]
    simp
  have htake : (('[' :: (mid ++ [']'])) ++ '\n' :: backtick :: backtick :: backtick :: r).take
      (mid.length + 3) = ('[' :: (mid ++ [']'])) ++ ['\n'] := by
    rw [hshape]
    have hlen : (('[' :: (mid ++ [']'])) ++ ['\n']).length = mid.length + 3 := by simp
    conv_lhs => rw [show mid.length + 3 = (('[' :: (mid ++ [']'])) ++ ['\n']).length + 0 from by
      rw [hlen]]
    rw [take_append_len]
    simp
  have htrim : trimR (('[' :: (mid ++ [']'])) ++ ['\n']) = '[' :: (mid ++ [']']) := by
    have hsh2 : ('[' :: (mid ++ [']'])) ++ ['\n'] = ('[' :: mid) ++ ']' :: ['\n'] := by simp
    rw [hsh2, trimR_append_cons _ _ _ (by decide)]
    have : trimR ['\n'] = [] := by decide
    rw [this]
    simp
  rw [fenceCapture]
  simp only [hws, hfind, htake, htrim]

/-- The fence regex on prose-wrapped fenced text captures the body. -/
theorem fenceMatch_wrap (a r mid : List Char) (ha : backtick ∉ a) (hm : backtick ∉ mid) :
    fenceMatch (a ++ fenceWrap ('[' :: (mid ++ [']'])) ++ r) = some ('[' :: (mid ++ [']'])) := by
  induction a with
  | nil =>
    have hshape : ([] : List Char) ++ fenceWrap ('[' :: (mid ++ [']'])) ++ r
        = backtick :: backtick :: backtick :: 'j' :: 's' :: 'o' :: 'n' :: '\n' ::
            (('[' :: (mid ++ [']'])) ++ '\n' :: backtick :: backtick :: backtick :: r) := by
      simp [fenceWrap, fencePre_data, fencePost_data]
      decide
    rw [hshape, fenceMatch, if_pos (by simp [fenceAtHead])]
    have hcap := fenceCapture_wrap mid r hm
    simp only [List.drop_succ_cons, List.drop_zero, hcap]
  | cons x t ih =>
    have hx : ¬(x = backtick) := by rintro rfl; exact ha (List.mem_cons_self _ t)
    rw [List.cons_append, List.cons_append, fenceMatch,
      if_neg (by simp [fenceAtHead_cons_false _ hx])]
    exact ih (fun hmem => ha (List.mem_cons_of_mem x hmem))


/-! ### Preprocessing characterization -/

/-- Assigning then reading a field on a JavaScript object yields the value. -/
theorem jsGetField_setField (fs : List (List Char × Json)) (k : List Char) (v : Json) :
    jsGetField (setField fs k v) k = some v := by
  induction fs with
  | nil => simp [setField, jsGetField]
  | cons p rest ih =>
    cases p with
    | mk k' v' =>
      rw [setField]
      by_cases h : k' = k
      · rw [if_pos h, jsGetField, if_pos rfl]
      · rw [if_neg h, jsGetField, if_neg h, ih]

/-- The body of a plain (unfenced) prose-wrapped response survives
preprocessing with only the prose trimmed. -/
theorem preprocess_plain (p1 p2 mid : List Char)
    (hb1 : backtick ∉ p1) (hbm : backtick ∉ mid) (hb2 : backtick ∉ p2) :
    preprocess (p1 ++ ('[' :: (mid ++ [']'])) ++ p2)
      = trimL p1 ++ ('[' :: (mid ++ [']'])) ++ trimR p2 := by
  have htrim := jsTrim_sandwich p1 mid p2 '[' ']' (by decide) (by decide)
  have hnb : backtick ∉ trimL p1 ++ ('[' :: (mid ++ [']'])) ++ trimR p2 := by
    intro hmem
    rcases List.mem_append.mp hmem with h | h
    · rcases List.mem_append.mp h with h | h
      · exact hb1 (mem_of_mem_trimL h)
      · rcases List.mem_cons.mp h with h | h
        · exact absurd h (by decide)
        · rcases List.mem_append.mp h with h | h
          · exact hbm h
          · exact absurd (List.mem_singleton.mp h) (by decide)
    · exact hb2 (mem_of_mem_trimR h)
  rw [preprocess, htrim, fenceMatch_of_no_backtick hnb]

/-- A fenced response preprocesses to exactly the fenced body, whatever the
prose around the fence. -/
theorem preprocess_fenced (p1 p2 mid : List Char)
    (hb1 : backtick ∉ p1) (hbm : backtick ∉ mid) :
    preprocess (p1 ++ fenceWrap ('[' :: (mid ++ [']'])) ++ p2) = '[' :: (mid ++ [']']) := by
  have hshape : fenceWrap ('[' :: (mid ++ [']']))
      = backtick :: ((backtick :: backtick :: 'j' :: 's' :: 'o' :: 'n' :: '\n' ::
          (('[' :: (mid ++ [']'])) ++ ['\n', backtick, backtick])) ++ [backtick]) := by
    simp [fenceWrap, fencePre_data, fencePost_data]
    decide
  have htrim : jsTrim (p1 ++ fenceWrap ('[' :: (mid ++ [']'])) ++ p2)
      = trimL p1 ++ fenceWrap ('[' :: (mid ++ [']'])) ++ trimR p2 := by
    rw [hshape]
    exact jsTrim_sandwich p1 _ p2 backtick backtick (by decide) (by decide)
  have hfence := fenceMatch_wrap (trimL p1) (trimR p2) mid
    (fun h => hb1 (mem_of_mem_trimL h)) hbm
  rw [preprocess, htrim, hfence]

/-- The extractor applied to a JSON array body, optionally fenced and/or
surrounded by prose, recovers exactly the body. -/
theorem extractJsonSlice_wrapped (fenced : Bool) (p1 p2 mid : List Char)
    (hb1 : backtick ∉ p1) (hbm : backtick ∉ mid)
    (hplain : fenced = false → '[' ∉ p1 ∧ ']' ∉ p2 ∧ backtick ∉ p2) :
    extractJsonSlice (aiWrapped fenced p1 p2 ('[' :: (mid ++ [']'])))
      = some ('[' :: (mid ++ [']'])) := by
  cases fenced with
  | true =>
    have hw : aiWrapped true p1 p2 ('[' :: (mid ++ [']']))
        = p1 ++ fenceWrap ('[' :: (mid ++ [']'])) ++ p2 := by
      simp [aiWrapped]
    rw [extractJsonSlice, hw, preprocess_fenced p1 p2 mid hb1 hbm]
    have hs := extractSliceCore_spec [] mid [] (by simp) (by simp)
    simpa using hs
  | false =>
    obtain ⟨h1, h2, h3⟩ := hplain rfl
    have hw : aiWrapped false p1 p2 ('[' :: (mid ++ [']']))
        = p1 ++ ('[' :: (mid ++ [']'])) ++ p2 := by
      simp [aiWrapped]
    rw [extractJsonSlice, hw, preprocess_plain p1 p2 mid hb1 hbm h3]
    exact extractSliceCore_spec (trimL p1) mid (trimR p2)
      (fun h => h1 (mem_of_mem_trimL h)) (fun h => h2 (mem_of_mem_trimR h))

/-! ### Claim theorems: the extractor -/

/-- C1: on a response whose content is a JSON array of elements (optionally
fenced and/or surrounded by prose), strict extraction returns exactly the
mapped elements and lenient news extraction returns exactly the parsed
elements; every mapped video element carries
`thumbnailUrl = "https://i.ytimg.com/vi/" ++ id ++ "/hqdefault.jpg"` computed
from its `id`, overriding any thumbnail field the AI response carried. -/
theorem c1_extractor_roundtrip (fenced : Bool) (p1 p2 mid : List Char)
    (es vs : List Json)
    (hb1 : backtick ∉ p1) (hbm : backtick ∉ mid)
    (hplain : fenced = false → '[' ∉ p1 ∧ ']' ∉ p2 ∧ backtick ∉ p2)
    (hparse : Json.parse ('[' :: (mid ++ [']'])) = some (Json.arr es))
    (hmap : mapVideos es = some vs) :
    searchFromText (aiWrapped fenced p1 p2 ('[' :: (mid ++ [']']))) = Except.ok vs
    ∧ fetchAndSummarizeNews (aiWrapped fenced p1 p2 ('[' :: (mid ++ [']']))) = Json.arr es
    ∧ ∀ (v w : Json) (idVal : Option Json), jsMember v idKey = some idVal →
        videoMapper v = some w →
        ∃ fs, w = Json.obj fs ∧
          jsGetField fs thumbnailUrlKey
            = some (Json.str (thumbUrl (jsToDisplayString idVal))) := by
  have hslice := extractJsonSlice_wrapped fenced p1 p2 mid hb1 hbm hplain
  refine ⟨?_, ?_, ?_⟩
  · simp only [searchFromText, hslice, hparse, hmap]
  · simp only [fetchAndSummarizeNews, hslice, hparse]
  · intro v w idVal hid hmapv
    rw [videoMapper, hid] at hmapv
    refine ⟨setField (spreadFields v) thumbnailUrlKey
      (Json.str (thumbUrl (jsToDisplayString idVal))), ?_, ?_⟩
    · exact (Option.some.injEq _ _ ▸ hmapv).symm
    · exact jsGetField_setField _ _ _

/-- C1 witness: the spec scenario — a fenced one-element array with id `"x1"`
surrounded by prose yields exactly one video whose `thumbnailUrl` is derived
from the id, and the news path yields the parsed element. -/
theorem c1_extractor_roundtrip_witness :
    searchFromText (aiWrapped true "Here is the result: ".data " Enjoy!".data
        ('[' :: (sampleMid ++ [']']))) = Except.ok sampleVideos
    ∧ fetchAndSummarizeNews (aiWrapped true "Here is the result: ".data " Enjoy!".data
        ('[' :: (sampleMid ++ [']']))) = Json.arr sampleElems :=
  by
  have hdisp : jsToDisplayString (some (Json.str "x1".data)) = "x1".data := by
    simp [jsToDisplayString, jsDisplay]
  have hne : ¬(("id".data : List Char) = "thumbnailUrl".data) := by decide
  have hmap : mapVideos sampleElems = some sampleVideos := by
    simp [mapVideos, videoMapper, sampleElems, sampleVideos, jsMember, spreadFields,
      idKey, thumbnailUrlKey, jsGetField, setField, hdisp, hne]
  have h := c1_extractor_roundtrip true "Here is the result: ".data " Enjoy!".data sampleMid
    sampleElems sampleVideos (by decide) (by decide) (fun hf => nomatch hf) rfl hmap
  exact ⟨h.1, h.2.1⟩

/-- C2: when the preprocessed response has no `[` or no `]`, the lenient
callers resolve with an empty sequence and the strict video-search caller
raises the descriptive extraction error instead of returning a result. -/
theorem c2_missing_brackets (text : List Char)
    (h : '[' ∉ preprocess text ∨ ']' ∉ preprocess text) :
    fetchAndSummarizeNews text = Json.arr []
    ∧ generateTagsForNewsSource text = []
    ∧ searchFromText text = Except.error aiReturnedMsg
    ∧ ∀ tags : List String, tags.length ≠ 0 →
        searchYouTubeVideos tags (Except.ok text) = Except.error aiReturnedMsg := by
  have hnone : extractJsonSlice text = none := extractSliceCore_none h
  refine ⟨?_, ?_, ?_, ?_⟩
  · simp only [fetchAndSummarizeNews, hnone]
  · simp only [generateTagsForNewsSource, hnone]
  · simp only [searchFromText, hnone]
  · intro tags htags
    rw [searchYouTubeVideos, if_neg htags]
    simp only [searchFromText, hnone]

/-- C2 witness: a concrete bracket-free response resolves with the empty news
array and raises the strict extraction failure. -/
theorem c2_missing_brackets_witness :
    ('[' ∉ preprocess "no json array here".data
      ∨ ']' ∉ preprocess "no json array here".data)
    ∧ fetchAndSummarizeNews "no json array here".data = Json.arr []
    ∧ searchFromText "no json array here".data = Except.error aiReturnedMsg :=
  ⟨Or.inl (by decide),
   (c2_missing_brackets "no json array here".data (Or.inl (by decide))).1,
   (c2_missing_brackets "no json array here".data (Or.inl (by decide))).2.2.1⟩

end GoogleAiDashboard
